import Mathlib

/-!
Verification development for the SnailShell command interpreter.

The definitions below are a shallow embedding of the C sources:
Parse.c (tokenization, variable assignment, substitution, parse),
Run.c (the executor loop, the built-in cd dispatch) and the Command
struct of SnailShell.h.  Strings are lists of characters, the process
environment is an association list, and the executor is modelled as a
pure step function that also returns the trace of fork/wait events the
parent performs and the diagnostics written to standard error.
-/

namespace SnailShell

/-- A C string, modelled as its list of characters. -/
abbrev Str := List Char

/-- The process environment (the Variable Store): an association list
from names to values, as maintained by setenv/getenv. -/
abbrev Env := List (Str × Str)

/-- The C locale isalpha test used at Parse.c line 52: true exactly on
ASCII letters. -/
def cIsAlpha (c : Char) : Bool :=
  decide (('A' ≤ c ∧ c ≤ 'Z') ∨ ('a' ≤ c ∧ c ≤ 'z'))

/-- Library getenv: the value bound to a name, or none when unset. -/
def getEnv : Env → Str → Option Str
  | [], _ => none
  | (n, v) :: rest, name => if n = name then some v else getEnv rest name

/-- Library setenv with overwrite = 1: replace an existing binding for
the name, or append a new one. -/
def setEnv : Env → Str → Str → Env
  | [], name, value => [(name, value)]
  | (n, v) :: rest, name, value =>
    if n = name then (name, value) :: rest else (n, v) :: setEnv rest name value

/-- The messages the parser and executor write to standard error on the
paths modelled here (Parse.c lines 53 and 168, the setenv perror at
Parse.c line 61, the chdir perror at Run.c line 71 and the message at
Run.c line 257). -/
inductive Diag where
  | varInvalid (name : Str)
  | setenvErr
  | assignFailed
  | chdirErr
  | cdFailed
deriving DecidableEq

/-- Parse.c handleVariableAssignment (lines 36-70): the candidate name
is checked to hold only letters and underscores; on an invalid
character an error is printed and nothing is written.  The setenv call
is modelled per POSIX: it fails exactly when the name is empty (the
name cannot contain an equals sign here, being the text before the
first one), and that failure is reported and writes nothing.  Returns
the updated environment on success (C return 0), none on failure
(C return -1), together with the diagnostics printed. -/
def handleVariableAssignment (env : Env) (name value : Str) : Option Env × List Diag :=
  if name.all (fun c => cIsAlpha c || c == '_') then
    if name.isEmpty then (none, [Diag.setenvErr])
    else (some (setEnv env name value), [])
  else (none, [Diag.varInvalid name])

/-- Accumulator loop for the strtok_r token stream. -/
def tokenAux (isDelim : Char → Bool) : Str → Str → List Str
  | [], acc => if acc.isEmpty then [] else [acc.reverse]
  | c :: cs, acc =>
    if isDelim c then
      if acc.isEmpty then tokenAux isDelim cs []
      else acc.reverse :: tokenAux isDelim cs []
    else tokenAux isDelim cs (c :: acc)

/-- The token stream produced by repeated strtok_r calls: the maximal
runs of non-delimiter characters, in order; empty tokens never occur. -/
def splitTokens (isDelim : Char → Bool) (s : Str) : List Str :=
  tokenAux isDelim s []

/-- The whitespace delimiter set of the inner strtok_r calls. -/
def isShellWs (c : Char) : Bool := c == ' ' || c == '\t'

/-- The pipe delimiter of the outer strtok_r calls. -/
def isPipeChar (c : Char) : Bool := c == '|'

/-- The output redirection operator token. -/
def outTok : Str := ['>']

/-- The append output redirection operator token. -/
def appendTok : Str := ['>', '>']

/-- The input redirection operator token. -/
def inTok : Str := ['<']

/-- The name of the built-in dispatched by the executor. -/
def cdStr : Str := "cd".toList

/-- The variable consulted by cd when at most one argument exists. -/
def homeStr : Str := "HOME".toList

/-- One pipeline stage: struct Command of SnailShell.h, with the args
array represented by the list of the argCount strings stored in it
(argCount equals the length of the list).  The raw 128-slot C array
itself is rebuilt by argsArray below. -/
structure Command where
  args : List Str
  input : Option Str := none
  output : Option Str := none
  append : Bool := false
deriving DecidableEq

/-- A freshly allocated, zeroed Command (Parse.c lines 185-192). -/
def emptyCommand : Command :=
  { args := [], input := none, output := none, append := false }

/-- The inner token loop of parse (Parse.c lines 204-243): an operator
token consumes the following token as a redirect path (setting or
clearing the append flag for the output operators) and an operator with
no following token ends the scan with nothing set and nothing printed;
every other token is appended to the argument list. -/
def scanTokens : Command → List Str → Command
  | c, [] => c
  | c, t :: rest =>
    if t = outTok then
      match rest with
      | [] => c
      | p :: rest2 => scanTokens { c with output := some p, append := false } rest2
    else if t = appendTok then
      match rest with
      | [] => c
      | p :: rest2 => scanTokens { c with output := some p, append := true } rest2
    else if t = inTok then
      match rest with
      | [] => c
      | p :: rest2 => scanTokens { c with input := some p } rest2
    else scanTokens { c with args := c.args ++ [t] } rest

/-- Parse.c replace (lines 86-109): an argument whose first character
is the dollar sign is replaced wholly by the environment value of the
remainder (the empty string when unset); any other argument is copied
verbatim. -/
def replace (env : Env) (arg : Str) : Str :=
  match arg with
  | [] => []
  | a :: rest => if a = '$' then (getEnv env rest).getD [] else a :: rest

/-- Parse.c substitute (lines 125-135): replace every argument of the
command; the redirect paths are not touched. -/
def substitute (env : Env) (c : Command) : Command :=
  { c with args := c.args.map (replace env) }

/-- The Command built for one pipe-delimited segment before
substitution: tokenize on whitespace and run the scan loop on a zeroed
Command. -/
def rawCommand (seg : Str) : Command :=
  scanTokens emptyCommand (splitTokens isShellWs seg)

/-- Parse.c parse (lines 160-251).  A zero-length line yields no
pipeline.  A line holding an equals sign is handled entirely as an
assignment (name = text before the first equals sign, value = literal
text after it) and yields no pipeline, with parse printing an extra
message when the assignment fails.  Otherwise the line is split on the
pipe character into segments, each segment is scanned and substituted,
and the head of the resulting stage list is returned (none when there
is no segment).  The result is the updated environment, the optional
pipeline, and the diagnostics printed. -/
def parse (env : Env) (line : Str) : Env × Option (List Command) × List Diag :=
  if line.isEmpty then (env, none, [])
  else if line.contains '=' then
    let name := line.takeWhile (fun c => c != '=')
    let value := (line.dropWhile (fun c => c != '=')).tail
    match handleVariableAssignment env name value with
    | (some env2, ds) => (env2, none, ds)
    | (none, ds) => (env, none, ds ++ [Diag.assignFailed])
  else
    let cmds := (splitTokens isPipeChar line).map (fun seg => substitute env (rawCommand seg))
    (env, if cmds.isEmpty then none else some cmds, [])

/-- The observable state the executor mutates in the parent process:
the environment and the working directory. -/
structure ShellState where
  env : Env
  cwd : Str
deriving DecidableEq

/-- The process events the parent performs, indexed by stage position. -/
inductive Event where
  | fork (i : Nat)
  | wait (i : Nat)
deriving DecidableEq

/-- Run.c handleCD lines 63-68: the target directory is the last
argument when more than one argument exists, else the HOME variable
(none when HOME is unset). -/
def cdTarget (st : ShellState) (c : Command) : Option Str :=
  if 1 < c.args.length then c.args.getLast? else getEnv st.env homeStr

/-- Run.c handleCD (lines 62-75) plus the caller's error message (Run.c
line 257): chdir is modelled by the oracle fs, mapping the current
directory and the target to the new directory, or none on failure.  A
missing target or a chdir failure leaves the directory unchanged and
prints diagnostics. -/
def stepCD (fs : Str → Str → Option Str) (st : ShellState) (c : Command) :
    ShellState × List Diag :=
  match cdTarget st c with
  | none => (st, [Diag.chdirErr, Diag.cdFailed])
  | some t =>
    match fs st.cwd t with
    | none => (st, [Diag.chdirErr, Diag.cdFailed])
    | some d => ({ st with cwd := d }, [])

/-- The stage loop of Run.c execute (lines 249-286), walking the stages
left to right with i the stage position.  Each stage first has its
first argument read by strcmp (Run.c line 255); a stage with no
arguments makes that read a null-pointer dereference, which is
undefined behaviour, modelled as the result none.  A cd stage runs
stepCD synchronously with no fork.  Any other stage forks, and the
parent blocks in waitpid on that child before moving on, so the trace
gains a fork event immediately followed by the matching wait event.
Child-side work (redirection wiring, execvp) happens in the child image
and does not touch the parent state.  fork and waitpid failures
terminate the shell and are not modelled (the oracle cannot fail). -/
def executeAux (fs : Str → Str → Option Str) (st : ShellState) (i : Nat) :
    List Command → Option (ShellState × List Event × List Diag)
  | [] => some (st, [], [])
  | c :: rest =>
    match c.args with
    | [] => none
    | a0 :: _ =>
      if a0 = cdStr then
        match stepCD fs st c with
        | (st2, ds) =>
          match executeAux fs st2 (i + 1) rest with
          | none => none
          | some (st3, evs, ds2) => some (st3, evs, ds ++ ds2)
      else
        match executeAux fs st (i + 1) rest with
        | none => none
        | some (st3, evs, ds2) => some (st3, Event.fork i :: Event.wait i :: evs, ds2)

/-- Run.c execute on a whole pipeline, starting at stage position 0. -/
def execute (fs : Str → Str → Option Str) (st : ShellState) (cmds : List Command) :
    Option (ShellState × List Event × List Diag) :=
  executeAux fs st 0 cmds

/-- MAX_NUM_ARGS of SnailShell.h: the capacity of the args array. -/
def maxNumArgs : Nat := 128

/-- The sequence of writes args[i] = strdup(subtoken); i++ performed by
the scan loop, on the raw array model (a write past the end of the
array is out of bounds in C; List.set drops it). -/
def writeArgs : List (Option Str) → Nat → List Str → List (Option Str)
  | arr, _, [] => arr
  | arr, i, x :: xs => writeArgs (arr.set i (some x)) (i + 1) xs

/-- The raw args array of a parsed Command: 128 slots zeroed by memset
(Parse.c line 191), the argument strings written in order, and the
terminator write args[argCount] = NULL of Parse.c line 244. -/
def argsArray (args : List Str) : List (Option Str) :=
  (writeArgs (List.replicate maxNumArgs none) 0 args).set args.length none

/-- No element of the argument list is a raw redirection operator
token. -/
def opFree (args : List Str) : Prop :=
  ∀ t ∈ args, t ≠ inTok ∧ t ≠ outTok ∧ t ≠ appendTok

instance (args : List Str) : Decidable (opFree args) := by
  unfold opFree; infer_instance

/-- Number of fork events in a trace. -/
def countFork : List Event → Nat
  | [] => 0
  | Event.fork _ :: rest => countFork rest + 1
  | Event.wait _ :: rest => countFork rest

/-- Number of wait events in a trace. -/
def countWait : List Event → Nat
  | [] => 0
  | Event.wait _ :: rest => countWait rest + 1
  | Event.fork _ :: rest => countWait rest

/-- The trace shape produced by a sequence of fork-then-immediately-wait
stages at the given stage positions. -/
def forkWaitBlocks : List Nat → List Event
  | [] => []
  | k :: ks => Event.fork k :: Event.wait k :: forkWaitBlocks ks

/-! Helper lemmas shared by the claim theorems. -/

/-- Writing a binding makes it visible to lookup. -/
theorem getEnv_setEnv_self (env : Env) (name value : Str) :
    getEnv (setEnv env name value) name = some value := by
  induction env with
  | nil => simp [setEnv, getEnv]
  | cons hd rest ih =>
    obtain ⟨n, v⟩ := hd
    by_cases h : n = name
    · simp [setEnv, getEnv, h]
    · simp [setEnv, getEnv, h, ih]

/-- The scan on an input operator followed by a path. -/
theorem scanTokens_in_step (c : Command) (p : Str) (rest : List Str) :
    scanTokens c (inTok :: p :: rest) = scanTokens { c with input := some p } rest := rfl

/-- The scan on an output operator followed by a path. -/
theorem scanTokens_out_step (c : Command) (p : Str) (rest : List Str) :
    scanTokens c (outTok :: p :: rest) =
      scanTokens { c with output := some p, append := false } rest := rfl

/-- The scan on an append operator followed by a path. -/
theorem scanTokens_append_step (c : Command) (p : Str) (rest : List Str) :
    scanTokens c (appendTok :: p :: rest) =
      scanTokens { c with output := some p, append := true } rest := rfl

/-- The scan on a non-operator token. -/
theorem scanTokens_arg_step (c : Command) (t : Str) (rest : List Str)
    (h1 : t ≠ outTok) (h2 : t ≠ appendTok) (h3 : t ≠ inTok) :
    scanTokens c (t :: rest) = scanTokens { c with args := c.args ++ [t] } rest := by
  rw [scanTokens.eq_def]
  simp [h1, h2, h3]

/-- The scan on a dangling operator: the loop ends, nothing is set. -/
theorem scanTokens_dangling_step (c : Command) (op : Str)
    (h : op = inTok ∨ op = outTok ∨ op = appendTok) :
    scanTokens c [op] = c := by
  rcases h with h | h | h <;> subst h <;> rfl

/-- Fuel-indexed form of the operator-freeness preservation of the scan
loop: tokens reaching the argument list never equal an operator. -/
theorem scanTokens_opFree_fuel :
    ∀ (n : Nat) (toks : List Str), toks.length ≤ n →
      ∀ c : Command, opFree c.args → opFree (scanTokens c toks).args := by
  intro n
  induction n with
  | zero =>
    intro toks h c hc
    have : toks = [] := List.length_eq_zero.mp (Nat.le_zero.mp h)
    subst this
    simpa [scanTokens] using hc
  | succ n ih =>
    intro toks h c hc
    match toks with
    | [] => simpa [scanTokens] using hc
    | t :: rest =>
      by_cases h1 : t = outTok
      · subst h1
        match rest with
        | [] => simpa [scanTokens] using hc
        | p :: rest2 =>
          rw [scanTokens_out_step]
          exact ih rest2 (by simp at h ⊢; omega) _ hc
      · by_cases h2 : t = appendTok
        · subst h2
          match rest with
          | [] => simpa [scanTokens] using hc
          | p :: rest2 =>
            rw [scanTokens_append_step]
            exact ih rest2 (by simp at h ⊢; omega) _ hc
        · by_cases h3 : t = inTok
          · subst h3
            match rest with
            | [] => simpa [scanTokens] using hc
            | p :: rest2 =>
              rw [scanTokens_in_step]
              exact ih rest2 (by simp at h ⊢; omega) _ hc
          · rw [scanTokens_arg_step c t rest h1 h2 h3]
            refine ih rest (by simp at h ⊢; omega) _ ?_
            intro u hu
            rcases List.mem_append.mp hu with hu | hu
            · exact hc u hu
            · rcases List.mem_singleton.mp hu with rfl
              exact ⟨h3, h1, h2⟩

/-- Operator-freeness preservation of the scan loop. -/
theorem scanTokens_opFree (c : Command) (toks : List Str) (hc : opFree c.args) :
    opFree (scanTokens c toks).args :=
  scanTokens_opFree_fuel toks.length toks le_rfl c hc

/-- Replacement of a dollar token. -/
theorem replace_dollar (env : Env) (name : Str) :
    replace env ('$' :: name) = (getEnv env name).getD [] := by
  simp [replace]

/-- Replacement of any other token is the identity. -/
theorem replace_other (env : Env) (t : Str) (h : t.head? ≠ some '$') :
    replace env t = t := by
  match t with
  | [] => rfl
  | a :: rest =>
    have ha : a ≠ '$' := by simpa using h
    simp [replace, ha]

/-- Substitution leaves the input redirect path untouched. -/
theorem substitute_input (env : Env) (c : Command) :
    (substitute env c).input = c.input := rfl

/-- Substitution leaves the output redirect path untouched. -/
theorem substitute_output (env : Env) (c : Command) :
    (substitute env c).output = c.output := rfl

/-- Substitution leaves the append flag untouched. -/
theorem substitute_append (env : Env) (c : Command) :
    (substitute env c).append = c.append := rfl

/-- Substitution acts pointwise on the argument list. -/
theorem substitute_args_get? (env : Env) (c : Command) (i : Nat) :
    (substitute env c).args.get? i = (c.args.get? i).map (replace env) := by
  simp [substitute]

/-- Every stage of a parsed pipeline is the substituted scan of one of
the pipe-delimited segments of the line. -/
theorem parse_pipeline_mem (env : Env) (line : Str) (cmds : List Command) (c : Command)
    (hp : (parse env line).2.1 = some cmds) (hc : c ∈ cmds) :
    ∃ seg ∈ splitTokens isPipeChar line, c = substitute env (rawCommand seg) := by
  unfold parse at hp
  split at hp
  · simp at hp
  · split at hp
    · simp only at hp
      split at hp <;> simp at hp
    · simp only at hp
      split at hp
      · simp at hp
      · rw [Option.some.injEq] at hp
        subst hp
        obtain ⟨seg, hseg, hfc⟩ := List.mem_map.mp hc
        exact ⟨seg, hseg, hfc.symm⟩

/-- Length is preserved by the sequence of argument writes. -/
theorem writeArgs_length (xs : List Str) :
    ∀ (arr : List (Option Str)) (i : Nat), (writeArgs arr i xs).length = arr.length := by
  induction xs with
  | nil => intro arr i; rfl
  | cons x xs ih => intro arr i; rw [writeArgs, ih, List.length_set]

/-- Pointwise description of the argument writes: a slot in the written
window holds the written string, any other slot is untouched. -/
theorem writeArgs_get? (xs : List Str) :
    ∀ (arr : List (Option Str)) (i j : Nat), i + xs.length ≤ arr.length →
      (writeArgs arr i xs).get? j =
        if i ≤ j ∧ j < i + xs.length then (xs.get? (j - i)).map some else arr.get? j := by
  induction xs with
  | nil =>
    intro arr i j _
    rw [writeArgs, if_neg (by simp)]
  | cons x xs ih =>
    intro arr i j h
    simp only [List.length_cons] at h
    rw [writeArgs]
    rw [ih (arr.set i (some x)) (i + 1) j (by rw [List.length_set]; omega)]
    by_cases hin : i + 1 ≤ j ∧ j < i + 1 + xs.length
    · rw [if_pos hin, if_pos (by simp only [List.length_cons]; omega)]
      have hj : j - i = (j - (i + 1)) + 1 := by omega
      rw [hj]
      simp
    · rw [if_neg hin]
      by_cases hji : j = i
      · subst hji
        rw [List.get?_set_eq_of_lt _ (by omega),
          if_pos (by simp only [List.length_cons]; omega)]
        simp
      · rw [List.get?_set_ne _ _ (fun hv => hji hv.symm),
          if_neg (by simp only [List.length_cons]; omega)]

/-- The fork/wait trace of the executor loop is the in-order list of
two-event blocks of its forked stage positions, which are strictly
increasing and bounded below by the starting position. -/
theorem executeAux_trace (fs : Str → Str → Option Str) (cmds : List Command) :
    ∀ (st : ShellState) (i : Nat) (st2 : ShellState) (evs : List Event) (ds : List Diag),
      executeAux fs st i cmds = some (st2, evs, ds) →
      ∃ idxs : List Nat, List.Chain' (· < ·) idxs ∧ (∀ j ∈ idxs, i ≤ j) ∧
        evs = forkWaitBlocks idxs := by
  induction cmds with
  | nil =>
    intro st i st2 evs ds h
    rw [executeAux] at h
    simp only [Option.some.injEq, Prod.mk.injEq] at h
    refine ⟨[], List.chain'_nil, by simp, ?_⟩
    rw [← h.2.1]
    rfl
  | cons c rest ih =>
    intro st i st2 evs ds h
    rw [executeAux] at h
    split at h
    · exact absurd h (by simp)
    · split at h
      · -- built-in cd stage: no events of its own
        split at h
        split at h
        · exact absurd h (by simp)
        · rename_i st2' ds' hsd st3 evs2 ds2 hrec
          simp only [Option.some.injEq, Prod.mk.injEq] at h
          obtain ⟨idxs, hch, hbd, hevs⟩ := ih _ (i + 1) _ _ _ hrec
          refine ⟨idxs, hch, fun j hj => Nat.le_of_succ_le (hbd j hj), ?_⟩
          rw [← h.2.1, hevs]
      · -- external stage: fork then wait, then the rest
        split at h
        · exact absurd h (by simp)
        · rename_i st3 evs2 ds2 hrec
          simp only [Option.some.injEq, Prod.mk.injEq] at h
          obtain ⟨idxs, hch, hbd, hevs⟩ := ih _ (i + 1) _ _ _ hrec
          refine ⟨i :: idxs, ?_, ?_, ?_⟩
          · rw [List.chain'_cons']
            exact ⟨fun y hy => hbd y (List.mem_of_mem_head? hy), hch⟩
          · intro j hj
            rcases List.mem_cons.mp hj with rfl | hj
            · exact le_rfl
            · exact Nat.le_of_succ_le (hbd j hj)
          · rw [← h.2.1, hevs]
            rfl

/-- Every prefix of a trace made of fork-then-wait blocks has at most
one fork not yet matched by a wait, and never more waits than forks. -/
theorem blocks_balanced (idxs : List Nat) :
    ∀ p q : List Event, forkWaitBlocks idxs = p ++ q →
      countWait p ≤ countFork p ∧ countFork p ≤ countWait p + 1 := by
  induction idxs with
  | nil =>
    intro p q h
    have hp : p = [] := by
      rw [forkWaitBlocks] at h
      have := List.append_eq_nil.mp h.symm
      exact this.1
    subst hp
    simp [countFork, countWait]
  | cons k ks ih =>
    intro p q h
    rw [forkWaitBlocks] at h
    match p with
    | [] => simp [countFork, countWait]
    | e1 :: p1 =>
      rw [List.cons_append] at h
      simp only [List.cons.injEq] at h
      obtain ⟨he1, h2⟩ := h
      match p1 with
      | [] =>
        rw [← he1]
        simp [countFork, countWait]
      | e2 :: p2 =>
        rw [List.cons_append] at h2
        simp only [List.cons.injEq] at h2
        obtain ⟨he2, h3⟩ := h2
        obtain ⟨hW, hF⟩ := ih p2 q h3
        rw [← he1, ← he2]
        simp only [countFork, countWait]
        omega

/-! The claim theorems. -/

/-- C1: evaluation of the code at the failing input.  On a line holding
a single space, parse does not return a null pipeline: only a
zero-length line does.  It returns a one-stage pipeline whose stage has
zero arguments, so a Command stage is created for a whitespace-only
line, contrary to the claim. -/
theorem parse_whitespace_only_creates_stage :
    parse [] [' '] = ([], some [emptyCommand], []) := by decide

/-- C2: evaluation of the code at the failing input.  The line of a
lone input redirection parses to a single stage with zero arguments,
and execute on that pipeline reads the absent first argument (the
strcmp dereference of a null args[0], modelled as the crash result
none) instead of rejecting the stage: no run-time rejection exists. -/
theorem execute_zero_arg_stage_crashes :
    (parse [] (("< f").toList)).2.1 = some [{ emptyCommand with input := some (("f").toList) }] ∧
      execute (fun _ _ => none) { env := [], cwd := [] }
        [{ emptyCommand with input := some (("f").toList) }] = none := by decide

/-- C3: after tokenization, every argument token of every parsed stage
whose first character is the dollar sign is replaced wholly by the
Variable Store value of the entire remainder of the token (empty when
unset, never the literal text), every other argument token is kept
verbatim, and the redirect paths of the stage undergo no
substitution. -/
theorem parse_substitution_spec (env : Env) (line : Str) (cmds : List Command) (c : Command)
    (hp : (parse env line).2.1 = some cmds) (hc : c ∈ cmds) :
    ∃ seg ∈ splitTokens isPipeChar line,
      c.input = (rawCommand seg).input ∧
      c.output = (rawCommand seg).output ∧
      ∀ i t, (rawCommand seg).args.get? i = some t →
        (∀ name, t = '$' :: name → c.args.get? i = some ((getEnv env name).getD [])) ∧
        (t.head? ≠ some '$' → c.args.get? i = some t) := by
  obtain ⟨seg, hseg, hcC⟩ := parse_pipeline_mem env line cmds c hp hc
  subst hcC
  refine ⟨seg, hseg, substitute_input env _, substitute_output env _, ?_⟩
  intro i t ht
  constructor
  · intro name hname
    rw [substitute_args_get?, ht, hname]
    simp [replace_dollar]
  · intro hhead
    rw [substitute_args_get?, ht]
    simp [replace_other env t hhead]

/-- Witness for C3 at a concrete store and line. -/
theorem parse_substitution_spec_witness :
    (parse [(['F'], ['v'])] (("echo $F").toList)).2.1 =
        some [{ emptyCommand with args := [("echo").toList, ['v']] }] ∧
      ∃ seg ∈ splitTokens isPipeChar (("echo $F").toList),
        ({ emptyCommand with args := [("echo").toList, ['v']] } : Command).input =
            (rawCommand seg).input ∧
          ({ emptyCommand with args := [("echo").toList, ['v']] } : Command).output =
            (rawCommand seg).output ∧
          ∀ i t, (rawCommand seg).args.get? i = some t →
            (∀ name, t = '$' :: name →
              ({ emptyCommand with args := [("echo").toList, ['v']] } : Command).args.get? i =
                some ((getEnv [(['F'], ['v'])] name).getD [])) ∧
            (t.head? ≠ some '$' →
              ({ emptyCommand with args := [("echo").toList, ['v']] } : Command).args.get? i =
                some t) :=
  ⟨by decide,
    parse_substitution_spec [(['F'], ['v'])] (("echo $F").toList)
      [{ emptyCommand with args := [("echo").toList, ['v']] }]
      { emptyCommand with args := [("echo").toList, ['v']] } (by decide) (by decide)⟩

/-- C4 counterexample: the claim's invariant that after parsing the
argument sequence never holds a raw redirection operator token fails:
assigning the value of a lone input operator to a variable and then
substituting it produces a parsed stage whose argument list holds that
raw operator token. -/
theorem parse_args_can_hold_operator :
    (parse (parse [] (("FOO=<").toList)).1 (("echo $FOO").toList)).2.1 =
        some [{ emptyCommand with args := [("echo").toList, inTok] }] ∧
      ¬ opFree [("echo").toList, inTok] := by decide

/-- C4 as amended: during the whitespace scan of a segment, an input
operator consumes the next token as the input path (each occurrence
overwriting the previous, so the last wins), an output operator
consumes the next token as the output path and clears the append flag,
an append operator consumes the next token as the output path and sets
the append flag, and every other token is appended to the argument
list, so the argument list built by the scan, before substitution,
never holds a raw operator token. -/
theorem scan_redirect_spec (c : Command) (t p : Str) (rest toks : List Str) :
    (scanTokens c (inTok :: p :: rest) = scanTokens { c with input := some p } rest) ∧
    (scanTokens c (outTok :: p :: rest) =
      scanTokens { c with output := some p, append := false } rest) ∧
    (scanTokens c (appendTok :: p :: rest) =
      scanTokens { c with output := some p, append := true } rest) ∧
    (t ≠ outTok → t ≠ appendTok → t ≠ inTok →
      scanTokens c (t :: rest) = scanTokens { c with args := c.args ++ [t] } rest) ∧
    (opFree c.args → opFree (scanTokens c toks).args) :=
  ⟨scanTokens_in_step c p rest, scanTokens_out_step c p rest, scanTokens_append_step c p rest,
    fun h1 h2 h3 => scanTokens_arg_step c t rest h1 h2 h3,
    fun hc => scanTokens_opFree c toks hc⟩

/-- Witness for C4 as amended at concrete tokens. -/
theorem scan_redirect_spec_witness :
    (scanTokens emptyCommand (inTok :: ("f").toList :: []) =
      scanTokens { emptyCommand with input := some (("f").toList) } []) ∧
    (scanTokens emptyCommand (("ls").toList :: []) =
      scanTokens { emptyCommand with args := emptyCommand.args ++ [("ls").toList] } []) ∧
    opFree (scanTokens emptyCommand [("ls").toList]).args := by
  have h := scan_redirect_spec emptyCommand (("ls").toList) (("f").toList) [] [("ls").toList]
  exact ⟨h.1, h.2.2.2.1 (by decide) (by decide) (by decide), h.2.2.2.2 (by decide)⟩

/-- C6 counterexample: a segment ending in a dangling input operator is
not a reported parse error: the code prints no diagnostic at all and
silently drops the operator, leaving the stage without an input path. -/
theorem parse_dangling_silent :
    parse [] (("cat <").toList) =
      ([], some [{ emptyCommand with args := [("cat").toList] }], []) := by decide

/-- C6 as amended: a redirection operator that is the last token of a
segment is silently ignored: the scan ends with the command unchanged
(no path set), and parsing a line free of the equals sign emits no
diagnostic whatsoever. -/
theorem scan_dangling_ignored (c : Command) (op : Str) (env : Env) (line : Str)
    (hop : op = inTok ∨ op = outTok ∨ op = appendTok)
    (hline : line.contains '=' = false) :
    scanTokens c [op] = c ∧ (parse env line).2.2 = [] := by
  refine ⟨scanTokens_dangling_step c op hop, ?_⟩
  unfold parse
  split
  · rfl
  · rw [if_neg (by rw [hline]; exact Bool.false_ne_true)]

/-- Witness for C6 as amended at a concrete operator and line. -/
theorem scan_dangling_ignored_witness :
    scanTokens emptyCommand [inTok] = emptyCommand ∧ (parse [] (("ls").toList)).2.2 = [] :=
  scan_dangling_ignored emptyCommand inTok [] (("ls").toList) (Or.inl rfl) (by decide)

/-- C10: substitution validates nothing about the variable name: for
any token beginning with the dollar sign, the whole remainder of the
token is the lookup key, so a bare dollar token looks up the empty name
(substituting to the empty string when unset), and a name holding a
digit, which assignment always rejects, is still read verbatim by
substitution. -/
theorem replace_no_validation (env : Env) (name value : Str) :
    (replace env ('$' :: name) = (getEnv env name).getD []) ∧
    (getEnv env [] = none → replace env ['$'] = []) ∧
    ((handleVariableAssignment env (("FOO1").toList) value).1 = none) ∧
    (getEnv env (("FOO1").toList) = some value →
      replace env ('$' :: ("FOO1").toList) = value) := by
  refine ⟨replace_dollar env name, ?_, ?_, ?_⟩
  · intro h
    rw [replace_dollar, h]
    rfl
  · rw [handleVariableAssignment, if_neg (by decide)]
  · intro h
    rw [replace_dollar, h]
    rfl

/-- Characterization of parse on a line holding an equals sign. -/
theorem parse_assign_eq (env : Env) (line : Str) (h : line.contains '=' = true)
    (hne : line ≠ []) :
    parse env line =
      match handleVariableAssignment env (line.takeWhile (fun c => c != '='))
          ((line.dropWhile (fun c => c != '=')).tail) with
      | (some env2, ds) => (env2, none, ds)
      | (none, ds) => (env, none, ds ++ [Diag.assignFailed]) := by
  unfold parse
  rw [if_neg (fun hE => hne (by simpa using hE)), if_pos h]

/-- C5: any line holding an equals sign is treated wholly as an
assignment and yields no pipeline; the candidate name is the text
before the first equals sign; when it is non-empty and made only of
ASCII letters and underscores the store maps it to the literal text
after that equals sign (overwriting any previous value) with no
diagnostic; otherwise a diagnostic is emitted and the store is
unchanged. -/
theorem parse_assignment_spec (env : Env) (line : Str) (h : line.contains '=' = true) :
    (parse env line).2.1 = none ∧
    ((line.takeWhile (fun c => c != '=')) ≠ [] ∧
        (line.takeWhile (fun c => c != '=')).all (fun c => cIsAlpha c || c == '_') = true →
      (parse env line).1 =
          setEnv env (line.takeWhile (fun c => c != '='))
            ((line.dropWhile (fun c => c != '=')).tail) ∧
        getEnv (parse env line).1 (line.takeWhile (fun c => c != '=')) =
          some ((line.dropWhile (fun c => c != '=')).tail) ∧
        (parse env line).2.2 = []) ∧
    (¬ ((line.takeWhile (fun c => c != '=')) ≠ [] ∧
        (line.takeWhile (fun c => c != '=')).all (fun c => cIsAlpha c || c == '_') = true) →
      (parse env line).1 = env ∧ (parse env line).2.2 ≠ []) := by
  have hne : line ≠ [] := by
    intro hE
    subst hE
    simp [List.contains] at h
  by_cases hval : (line.takeWhile (fun c => c != '=')) ≠ [] ∧
      (line.takeWhile (fun c => c != '=')).all (fun c => cIsAlpha c || c == '_') = true
  · obtain ⟨hne', hall⟩ := hval
    have hH : handleVariableAssignment env (line.takeWhile (fun c => c != '='))
        ((line.dropWhile (fun c => c != '=')).tail) =
        (some (setEnv env (line.takeWhile (fun c => c != '='))
          ((line.dropWhile (fun c => c != '=')).tail)), []) := by
      rw [handleVariableAssignment, if_pos hall,
        if_neg (by simp only [List.isEmpty_iff]; exact fun hE => hne' hE)]
    refine ⟨?_, fun _ => ⟨?_, ?_, ?_⟩, fun hcon => absurd ⟨hne', hall⟩ hcon⟩
    · rw [parse_assign_eq env line h hne, hH]
    · rw [parse_assign_eq env line h hne, hH]
    · rw [parse_assign_eq env line h hne, hH]
      exact getEnv_setEnv_self env _ _
    · rw [parse_assign_eq env line h hne, hH]
  · have hH : (handleVariableAssignment env (line.takeWhile (fun c => c != '='))
        ((line.dropWhile (fun c => c != '=')).tail)).1 = none := by
      rw [handleVariableAssignment]
      by_cases hall : (line.takeWhile (fun c => c != '=')).all
          (fun c => cIsAlpha c || c == '_') = true
      · have hcon : (line.takeWhile (fun c => c != '=')) = [] := by
          by_contra hne'
          exact hval ⟨hne', hall⟩
        rw [if_pos hall, if_pos (by simp [hcon])]
      · rw [if_neg hall]
    rcases hE : handleVariableAssignment env (line.takeWhile (fun c => c != '='))
        ((line.dropWhile (fun c => c != '=')).tail) with ⟨oenv, ds⟩
    rw [hE] at hH
    simp only at hH
    subst hH
    refine ⟨?_, fun hcon => absurd hcon hval, fun _ => ⟨?_, ?_⟩⟩
    · rw [parse_assign_eq env line h hne, hE]
    · rw [parse_assign_eq env line h hne, hE]
    · rw [parse_assign_eq env line h hne, hE]
      simp

/-- Witness for C5 at a concrete assignment whose value holds a pipe
character. -/
theorem parse_assignment_spec_witness :
    (("A=b|c").toList.contains '=' = true) ∧
      (parse [] (("A=b|c").toList)).2.1 = none ∧
      (parse [] (("A=b|c").toList)).1 = [(['A'], ("b|c").toList)] := by
  have h := parse_assignment_spec [] (("A=b|c").toList) (by decide)
  refine ⟨by decide, h.1, ?_⟩
  rw [(h.2.1 (by decide)).1]
  decide

/-- C7: a stage whose first argument is cd runs with no fork and no
wait: the executor applies the directory change synchronously and
proceeds to the next stage with the trace unchanged; the target is the
last argument when more than one argument exists and the HOME variable
otherwise; a missing target or a failed change leaves the working
directory unchanged and emits diagnostics; a successful change moves
the working directory to the resolved target. -/
theorem execute_cd_spec (fs : Str → Str → Option Str) (st : ShellState) (i : Nat)
    (c : Command) (rest : List Command) (h : c.args.head? = some cdStr) :
    (executeAux fs st i (c :: rest) =
      (executeAux fs (stepCD fs st c).1 (i + 1) rest).map
        (fun r => (r.1, r.2.1, (stepCD fs st c).2 ++ r.2.2))) ∧
    (1 < c.args.length → cdTarget st c = c.args.getLast?) ∧
    (c.args.length ≤ 1 → cdTarget st c = getEnv st.env homeStr) ∧
    (cdTarget st c = none → (stepCD fs st c).1.cwd = st.cwd ∧ (stepCD fs st c).2 ≠ []) ∧
    (∀ t, cdTarget st c = some t → fs st.cwd t = none →
      (stepCD fs st c).1.cwd = st.cwd ∧ (stepCD fs st c).2 ≠ []) ∧
    (∀ t d, cdTarget st c = some t → fs st.cwd t = some d → (stepCD fs st c).1.cwd = d) := by
  obtain ⟨a0, tl, hargs⟩ : ∃ a0 tl, c.args = a0 :: tl := by
    cases hA : c.args with
    | nil => rw [hA] at h; simp at h
    | cons x xs => exact ⟨x, xs, rfl⟩
  have ha0 : a0 = cdStr := by
    rw [hargs] at h
    simpa using h
  refine ⟨?_, ?_, ?_, ?_, ?_, ?_⟩
  · rw [executeAux, hargs]
    dsimp only
    rw [if_pos ha0]
    rcases hsd : stepCD fs st c with ⟨st2, ds⟩
    dsimp only
    rcases hrec : executeAux fs st2 (i + 1) rest with _ | ⟨st3, evs2, ds2⟩
    · simp
    · simp
  · intro hlen
    rw [cdTarget, if_pos hlen]
  · intro hlen
    rw [cdTarget, if_neg (by omega)]
  · intro hT
    constructor
    · simp [stepCD, hT]
    · simp [stepCD, hT]
  · intro t hT hfs
    constructor
    · simp [stepCD, hT, hfs]
    · simp [stepCD, hT, hfs]
  · intro t d hT hfs
    simp [stepCD, hT, hfs]

/-- Witness for C7: a cd stage with one argument and HOME unset fails,
leaves the directory unchanged, and the trace stays empty. -/
theorem execute_cd_spec_witness :
    (({ args := [cdStr] } : Command).args.head? = some cdStr) ∧
      (executeAux (fun _ _ => none) { env := [], cwd := [] } 0 [{ args := [cdStr] }] =
        (executeAux (fun _ _ => none)
            (stepCD (fun _ _ => none) { env := [], cwd := [] } { args := [cdStr] }).1 1 []).map
          (fun r => (r.1, r.2.1,
            (stepCD (fun _ _ => none) { env := [], cwd := [] } { args := [cdStr] }).2 ++
              r.2.2))) ∧
      (cdTarget { env := [], cwd := [] } { args := [cdStr] } = getEnv ([] : Env) homeStr) ∧
      ((stepCD (fun _ _ => none) { env := [], cwd := [] } { args := [cdStr] }).1.cwd =
        ([] : Str)) := by
  have h := execute_cd_spec (fun _ _ => none) { env := [], cwd := [] } 0
    { args := [cdStr] } [] (by decide)
  exact ⟨by decide, h.1, h.2.2.1 (by decide), (h.2.2.2.1 (by decide)).1⟩

/-- C8: whenever the executor runs a pipeline to completion, its trace
is exactly a left-to-right sequence of fork-then-wait blocks at
strictly increasing stage positions: the parent blocks on each child's
termination before the next fork, so no prefix of the trace ever has
two forks outstanding, and the stages are never all forked up front. -/
theorem execute_trace_order (fs : Str → Str → Option Str) (st : ShellState)
    (cmds : List Command) (st2 : ShellState) (evs : List Event) (ds : List Diag)
    (h : execute fs st cmds = some (st2, evs, ds)) :
    ∃ idxs : List Nat, List.Chain' (· < ·) idxs ∧ evs = forkWaitBlocks idxs ∧
      ∀ p q : List Event, evs = p ++ q →
        countWait p ≤ countFork p ∧ countFork p ≤ countWait p + 1 := by
  obtain ⟨idxs, hch, _, hevs⟩ := executeAux_trace fs cmds st 0 st2 evs ds h
  exact ⟨idxs, hch, hevs, fun p q hpq => blocks_balanced idxs p q (by rw [← hevs, hpq])⟩

/-- Witness for C8 on a concrete two-stage pipeline. -/
theorem execute_trace_order_witness :
    execute (fun _ _ => none) { env := [], cwd := [] }
        [{ args := [("echo").toList, ("hi").toList] }, { args := [("cat").toList] }] =
      some ({ env := [], cwd := [] },
        [Event.fork 0, Event.wait 0, Event.fork 1, Event.wait 1], []) ∧
    ∃ idxs : List Nat, List.Chain' (· < ·) idxs ∧
      [Event.fork 0, Event.wait 0, Event.fork 1, Event.wait 1] = forkWaitBlocks idxs ∧
      ∀ p q : List Event,
        [Event.fork 0, Event.wait 0, Event.fork 1, Event.wait 1] = p ++ q →
        countWait p ≤ countFork p ∧ countFork p ≤ countWait p + 1 :=
  ⟨by decide,
    execute_trace_order (fun _ _ => none) { env := [], cwd := [] }
      [{ args := [("echo").toList, ("hi").toList] }, { args := [("cat").toList] }]
      { env := [], cwd := [] }
      [Event.fork 0, Event.wait 0, Event.fork 1, Event.wait 1] [] (by decide)⟩

/-- C9: any stage produced by parse whose argument count is below the
array capacity has a null-terminated raw argument array: the slots
before argCount hold the argument strings and the slot at argCount
holds the null marker, the invariant execvp relies on. -/
theorem parse_args_null_terminated (env : Env) (line : Str) (cmds : List Command)
    (c : Command) (hp : (parse env line).2.1 = some cmds) (hc : c ∈ cmds)
    (hlen : c.args.length < maxNumArgs) :
    (argsArray c.args).length = maxNumArgs ∧
    (∀ i t, c.args.get? i = some t → (argsArray c.args).get? i = some (some t)) ∧
    (argsArray c.args).get? c.args.length = some none := by
  have hw : ∀ j, (writeArgs (List.replicate maxNumArgs none) 0 c.args).get? j =
      if 0 ≤ j ∧ j < 0 + c.args.length then (c.args.get? (j - 0)).map some
      else (List.replicate maxNumArgs none).get? j :=
    fun j => writeArgs_get? c.args (List.replicate maxNumArgs none) 0 j (by simp; omega)
  have hlenW : (writeArgs (List.replicate maxNumArgs none) 0 c.args).length = maxNumArgs := by
    rw [writeArgs_length]
    simp
  refine ⟨?_, ?_, ?_⟩
  · rw [argsArray, List.length_set, hlenW]
  · intro i t ht
    have hi : i < c.args.length := by
      by_contra hge
      rw [List.get?_eq_none.mpr (by omega)] at ht
      simp at ht
    rw [argsArray, List.get?_set_ne _ _ (by omega), hw i, if_pos (by omega)]
    simp only [Nat.sub_zero, ht, Option.map_some']
  · rw [argsArray, List.get?_set_eq_of_lt _ (by rw [hlenW]; exact hlen)]

/-- Witness for C9 on a concrete one-argument stage. -/
theorem parse_args_null_terminated_witness :
    (parse [] (("ls").toList)).2.1 = some [{ emptyCommand with args := [("ls").toList] }] ∧
      ((argsArray [("ls").toList]).length = maxNumArgs ∧
        (∀ i t, ([("ls").toList] : List Str).get? i = some t →
          (argsArray [("ls").toList]).get? i = some (some t)) ∧
        (argsArray [("ls").toList]).get? ([("ls").toList] : List Str).length = some none) :=
  ⟨by decide,
    parse_args_null_terminated [] (("ls").toList)
      [{ emptyCommand with args := [("ls").toList] }]
      { emptyCommand with args := [("ls").toList] } (by decide) (by decide) (by decide)⟩

/-- Witness for C10 at a concrete store holding only the digit-bearing
name. -/
theorem replace_no_validation_witness :
    (replace [(("FOO1").toList, ['v'])] ('$' :: ("FOO1").toList) =
        (getEnv [(("FOO1").toList, ['v'])] (("FOO1").toList)).getD []) ∧
      (replace [(("FOO1").toList, ['v'])] ['$'] = []) ∧
      ((handleVariableAssignment [(("FOO1").toList, ['v'])] (("FOO1").toList) ['v']).1 = none) ∧
      (replace [(("FOO1").toList, ['v'])] ('$' :: ("FOO1").toList) = ['v']) := by
  have h := replace_no_validation [(("FOO1").toList, ['v'])] (("FOO1").toList) ['v']
  exact ⟨h.1, h.2.1 (by decide), h.2.2.1, h.2.2.2 (by decide)⟩

end SnailShell
